import Mathlib

/-!
Verification of the pumpfinder repository: a shallow embedding of the
event-log decoder (`src/MintUtils.ts`) and of the fetch/retry/batch
pipeline (`src/pumpfinder.ts`), together with theorems settling the
specification's claims about them.

Modelling conventions:
* A JavaScript byte buffer is a `List Nat` (each entry one byte).
* JavaScript numbers that can become `NaN` through out-of-range reads are
  modelled by `JsNum`; `undefined` results of out-of-range indexing are
  `Option Nat`, and `x + undefined = NaN` as in JS.
* `Buffer.slice` / `Uint8Array.slice` clamp their arguments and never
  throw; `jsSlice` reproduces this (with `ToIntegerOrInfinity NaN = 0`).
* `TextDecoder("utf-8").decode` is modelled as the identity on the byte
  list (strings produced by it are represented by their UTF-8 code units).
* ISO-8601 timestamps are represented by their epoch-millisecond value
  (`new Date(s).getTime()`), since the code only ever compares and stores
  the parsed value; `new Date(t * 1000).toISOString()` becomes `1000 * t`.
-/

namespace Pumpfinder

/-! ## JavaScript numeric and buffer primitives -/

/-- A JavaScript number as used for offsets in `decodeMint`: either an
actual natural number or `NaN` (produced by arithmetic with `undefined`). -/
inductive JsNum where
  | nan
  | num (n : Nat)
deriving DecidableEq, Repr

/-- `ToIntegerOrInfinity` as applied by `slice`: `NaN` becomes `0`. -/
def JsNum.toIdx : JsNum → Nat
  | .nan => 0
  | .num n => n

/-- Addition of a plain numeric literal (`offset += 4`): `NaN` is sticky. -/
def JsNum.addNat : JsNum → Nat → JsNum
  | .nan, _ => .nan
  | .num n, k => .num (n + k)

/-- Addition of a possibly-`undefined` value (`offset + length`): adding
`undefined` yields `NaN`. -/
def JsNum.addOpt : JsNum → Option Nat → JsNum
  | _, none => .nan
  | .nan, _ => .nan
  | .num n, some k => .num (n + k)

/-- `data[offset]` on a `Uint8Array`/`Buffer`: out-of-range (or `NaN`)
indexing yields `undefined`. -/
def jsIndex (l : List Nat) : JsNum → Option Nat
  | .nan => none
  | .num i => l[i]?

/-- `data.slice(start, end)` on a `Uint8Array`/`Buffer`: both arguments are
clamped into range and `NaN` is treated as `0`; never throws. -/
def jsSlice (l : List Nat) (s e : JsNum) : List Nat :=
  (l.take e.toIdx).drop s.toIdx

/-! ## base58 encoding (the `bs58` dependency of `MintUtils.ts`) -/

/-- The bitcoin base58 alphabet used by `bs58.encode`. -/
def B58_ALPHABET : List Char :=
  "123456789ABCDEFGHJKLMNPQRSTUVWXYZabcdefghijkmnopqrstuvwxyz".toList

/-- Base-58 digits of `n`, most significant first; the first argument is
recursion fuel bounding the number of digits (any value `≥ n` suffices). -/
def natToB58 : Nat → Nat → List Nat
  | 0, _ => []
  | fuel + 1, n => if n = 0 then [] else natToB58 fuel (n / 58) ++ [n % 58]

/-- `bs58.encode`: one `'1'` per leading zero byte, then the base-58
digits of the remaining big-endian number.  Encodes `[]` to `""`. -/
def b58encode (bytes : List Nat) : String :=
  let zeros := bytes.takeWhile (fun b => b = 0)
  let n := bytes.foldl (fun a b => a * 256 + b) 0
  ⟨zeros.map (fun _ => '1') ++ (natToB58 n n).map (fun d => B58_ALPHABET.getD d '1')⟩

/-! ## base64 decoding (`Buffer.from(data, "base64")`) -/

/-- Value of one base64 alphabet character, `none` for other characters
(which Node's forgiving decoder skips). -/
def b64Val (c : Char) : Option Nat :=
  if 'A' ≤ c ∧ c ≤ 'Z' then some (c.toNat - 65)
  else if 'a' ≤ c ∧ c ≤ 'z' then some (c.toNat - 97 + 26)
  else if '0' ≤ c ∧ c ≤ '9' then some (c.toNat - 48 + 52)
  else if c = '+' then some 62
  else if c = '/' then some 63
  else none

/-- Bit accumulator for base64 decoding: consume 6 bits per character and
emit a byte whenever at least 8 bits are available; trailing bits that do
not fill a byte are discarded, as in Node. -/
def b64decodeAux : List Nat → Nat → Nat → List Nat
  | [], _, _ => []
  | v :: vs, acc, bits =>
    let acc' := acc * 64 + v
    let bits' := bits + 6
    if 8 ≤ bits' then
      (acc' / 2 ^ (bits' - 8)) :: b64decodeAux vs (acc' % 2 ^ (bits' - 8)) (bits' - 8)
    else
      b64decodeAux vs acc' bits'

/-- `Buffer.from(s, "base64")` for the inputs this program produces. -/
def b64decode (s : List Char) : List Nat :=
  b64decodeAux (s.filterMap b64Val) 0 0

/-! ## String helpers used by `processMintLog`

Lean's primitive `String` functions are avoided in favour of structurally
recursive list versions so that concrete runs reduce inside the kernel. -/

/-- `s.startsWith(p)`. -/
def jsStartsWith (s p : String) : Bool :=
  p.toList.isPrefixOf s.toList

/-- `s.endsWith(p)`. -/
def jsEndsWith (s p : String) : Bool :=
  p.toList.isSuffixOf s.toList

/-- ASCII whitespace stripped by `String.prototype.trim` (the characters
occurring in this program's inputs). -/
def jsIsWS (c : Char) : Bool :=
  c = ' ' ∨ c = '\t' ∨ c = '\n' ∨ c = '\r'

/-- `s.trim()`. -/
def jsTrim (s : String) : String :=
  ⟨((s.toList.dropWhile jsIsWS).reverse.dropWhile jsIsWS).reverse⟩

/-! ## The decoder (`src/MintUtils.ts`) -/

/-- The decoded mint event: the `Mint` class of `MintUtils.ts`.  String
fields produced by `TextDecoder` are byte lists; public keys are the
base58 strings produced by `bs58.encode`. -/
structure Mint where
  name : List Nat
  symbol : List Nat
  uri : List Nat
  mintAddress : String
  bondingCurve : String
  user : String
deriving DecidableEq, Repr

/-- `readLengthPrefixedString`: read `data[offset]` as the length (the
remaining three bytes of the nominally 4-byte length field are skipped),
advance past the 4-byte field, and slice out that many bytes.  An
out-of-range length read is `undefined`, making the slice empty and the
returned offset `NaN`. -/
def readLengthPrefixedString (data : List Nat) (offset : JsNum) : List Nat × JsNum :=
  let length := jsIndex data offset
  let offset4 := offset.addNat 4
  let stringData := jsSlice data offset4 (offset4.addOpt length)
  (stringData, offset4.addOpt length)

/-- `decodeMint`: fixed-layout decode of the event buffer.  Mirrors the
source exactly: every read is a clamped slice or an indexing that can
yield `undefined`, so the function is total — it never fails, no matter
how short the buffer is.  The leading 8-byte `program` field is decoded
but, as in the source, dropped by the `Mint` constructor. -/
def decodeMint (decoded : List Nat) : Mint :=
  let offset0 : JsNum := .num 0
  let _program := b58encode (jsSlice decoded offset0 (offset0.addNat 8))
  let offset1 := offset0.addNat 8
  let name := readLengthPrefixedString decoded offset1
  let offset2 := name.2
  let symbol := readLengthPrefixedString decoded offset2
  let offset3 := symbol.2
  let uri := readLengthPrefixedString decoded offset3
  let offset4 := uri.2
  let mint := b58encode (jsSlice decoded offset4 (offset4.addNat 32))
  let offset5 := offset4.addNat 32
  let bondingCurve := b58encode (jsSlice decoded offset5 (offset5.addNat 32))
  let offset6 := offset5.addNat 32
  let user := b58encode (jsSlice decoded offset6 (offset6.addNat 32))
  { name := name.1, symbol := symbol.1, uri := uri.1,
    mintAddress := mint, bondingCurve := bondingCurve, user := user }

/-- The data-marker the next log line must start with. -/
def dataMarker : String := "Program data: G3KpTd7rY3"

/-- The program success marker line. -/
def programSuccessLine : String :=
  "Program 6EF8rrecthR5Dkzon8Nwu78hRvfCKubJ14M5uBEwF6P success"

/-- `"Program data: ".length`, the prefix removed from the matched line
(the `replace` in the source removes its first occurrence, which under the
`startsWith` guard is the leading one). -/
def dataPrefixLen : Nat := 14

/-- The scan of `processMintLog`: find a line equal to the success marker
whose immediate successor starts with the data marker; strip the prefix,
trim, base64-decode and run the fixed-layout decoder.  (The `try/catch`
around `decodeMint` is dead in the model because `decodeMint` is total.)
If no adjacent marker pair matches, return `none`. -/
def processMintLogAux : List String → Option Mint
  | [] => none
  | l :: rest =>
    if l = programSuccessLine then
      match rest.head? with
      | some nextLine =>
        if jsStartsWith nextLine dataMarker then
          some (decodeMint (b64decode (jsTrim ⟨nextLine.toList.drop dataPrefixLen⟩).toList))
        else
          processMintLogAux rest
      | none => processMintLogAux rest
    else
      processMintLogAux rest

/-- `processMintLog` of `MintUtils.ts`. -/
def processMintLog (logs : List String) : Option Mint :=
  processMintLogAux logs

/-! ## Claim C2 — decoder behaviour on truncated buffers -/

/-- A log pair whose payload decodes to a 7-byte buffer: shorter than even
the 8-byte leading identifier, hence "truncated" for every field. -/
def truncatedLogs : List String :=
  [programSuccessLine, "Program data: G3KpTd7rY3"]

/-- C2. The specification demands that an undersized buffer make decoding
fail and `decode(logLines)` return absent.  The code instead clamps every
slice and treats out-of-range reads as `undefined`, so `decodeMint` never
throws: on the 7-byte payload of `truncatedLogs`, `processMintLog` returns
a partial `Mint` record — present, with all string fields empty and all
key fields the empty string — never absent.  This contradicts both the
spec and the decoder's own `try/catch`/error-log structure, which expects
malformed payloads to raise. -/
theorem C2_truncation_partial_record :
    (processMintLog truncatedLogs).isSome = true
    ∧ (processMintLog truncatedLogs).map Mint.name = some []
    ∧ (processMintLog truncatedLogs).map Mint.symbol = some []
    ∧ (processMintLog truncatedLogs).map Mint.uri = some []
    ∧ (processMintLog truncatedLogs).map Mint.mintAddress = some ""
    ∧ (processMintLog truncatedLogs).map Mint.bondingCurve = some ""
    ∧ (processMintLog truncatedLogs).map Mint.user = some "" := by
  refine ⟨rfl, ?_, ?_, ?_, ?_, ?_, ?_⟩ <;> decide

/-! ## Claim C3 — decoder round-trip on well-formed buffers -/

/-- Slicing `[pre.length, pre.length + mid.length)` out of `pre ++ mid ++ rest`
recovers `mid`. -/
theorem jsSlice_append (pre mid rest : List Nat) :
    jsSlice (pre ++ (mid ++ rest)) (.num pre.length) (.num (pre.length + mid.length)) = mid := by
  simp [jsSlice, JsNum.toIdx, List.take_append_eq_append_take,
    List.take_of_length_le, List.drop_append_eq_append_drop]

/-- Indexing `pre ++ x :: rest` at offset `pre.length` reads `x`. -/
theorem jsIndex_append (pre : List Nat) (x : Nat) (rest : List Nat) :
    jsIndex (pre ++ x :: rest) (.num pre.length) = some x := by
  show (pre ++ x :: rest)[pre.length]? = some x
  rw [List.getElem?_append_right (Nat.le_refl _)]
  simp

/-- `readLengthPrefixedString` on a well-formed field: a length byte equal
to `s.length`, three skipped length bytes, then the string bytes.  It
returns the string and the offset just past it. -/
theorem readLengthPrefixedString_spec (pre pad s rest : List Nat) (hpad : pad.length = 3) :
    readLengthPrefixedString (pre ++ s.length :: (pad ++ (s ++ rest))) (.num pre.length)
      = (s, .num (pre.length + (4 + s.length))) := by
  have hassoc : pre ++ s.length :: (pad ++ (s ++ rest))
      = (pre ++ s.length :: pad) ++ (s ++ rest) := by
    simp
  have hlen : (pre ++ s.length :: pad).length = pre.length + 4 := by
    simp [hpad]
  have hslice : jsSlice (pre ++ s.length :: (pad ++ (s ++ rest)))
      (.num (pre.length + 4)) (.num (pre.length + 4 + s.length)) = s := by
    rw [hassoc, ← hlen]
    exact jsSlice_append (pre ++ s.length :: pad) s rest
  unfold readLengthPrefixedString
  rw [jsIndex_append]
  simp only [JsNum.addNat, JsNum.addOpt]
  rw [hslice]
  congr 2
  omega

/-- C3.  Decoding a synthetically constructed buffer with the 7-field
layout — 8 opaque leading bytes; three strings each stored as a length
byte, three ignored padding bytes, and the string's bytes; then three
32-byte keys — recovers exactly the inputs: the three strings verbatim
and the three keys as their base58 encodings. -/
theorem C3_decoder_roundtrip
    (lead p1 p2 p3 nameB symB uriB k1 k2 k3 : List Nat)
    (hLead : lead.length = 8)
    (hp1 : p1.length = 3) (hp2 : p2.length = 3) (hp3 : p3.length = 3)
    (hn : nameB.length < 256) (hs : symB.length < 256) (hu : uriB.length < 256)
    (hk1 : k1.length = 32) (hk2 : k2.length = 32) (hk3 : k3.length = 32) :
    decodeMint (lead ++ [nameB.length] ++ p1 ++ nameB
        ++ [symB.length] ++ p2 ++ symB
        ++ [uriB.length] ++ p3 ++ uriB
        ++ k1 ++ k2 ++ k3)
      = { name := nameB, symbol := symB, uri := uriB,
          mintAddress := b58encode k1, bondingCurve := b58encode k2,
          user := b58encode k3 } := by
  have hB : lead ++ [nameB.length] ++ p1 ++ nameB
        ++ [symB.length] ++ p2 ++ symB
        ++ [uriB.length] ++ p3 ++ uriB
        ++ k1 ++ k2 ++ k3
      = lead ++ nameB.length :: (p1 ++ (nameB ++ symB.length :: (p2 ++ (symB ++ uriB.length :: (p3 ++ (uriB ++ (k1 ++ (k2 ++ (k3 ++ []))))))))) := by
    simp [List.append_assoc]
  rw [hB]
  set B := lead ++ nameB.length :: (p1 ++ (nameB ++ symB.length :: (p2 ++ (symB ++ uriB.length :: (p3 ++ (uriB ++ (k1 ++ (k2 ++ (k3 ++ []))))))))) with hBdef
  have h1 : readLengthPrefixedString B (.num 8) = (nameB, .num (8 + (4 + nameB.length))) := by
    rw [hBdef, ← hLead]
    exact readLengthPrefixedString_spec lead p1 nameB _ hp1
  have h2 : readLengthPrefixedString B (.num (8 + (4 + nameB.length)))
      = (symB, .num (8 + (4 + nameB.length) + (4 + symB.length))) := by
    have e : B = (lead ++ nameB.length :: (p1 ++ nameB))
        ++ symB.length :: (p2 ++ (symB ++ uriB.length :: (p3 ++ (uriB ++ (k1 ++ (k2 ++ (k3 ++ []))))))) := by
      rw [hBdef]; simp [List.append_assoc]
    have hl : (lead ++ nameB.length :: (p1 ++ nameB)).length = 8 + (4 + nameB.length) := by
      simp [hLead, hp1]; omega
    rw [e, ← hl]
    exact readLengthPrefixedString_spec _ p2 symB _ hp2
  have h3 : readLengthPrefixedString B (.num (8 + (4 + nameB.length) + (4 + symB.length)))
      = (uriB, .num (8 + (4 + nameB.length) + (4 + symB.length) + (4 + uriB.length))) := by
    have e : B = (lead ++ nameB.length :: (p1 ++ (nameB ++ symB.length :: (p2 ++ symB))))
        ++ uriB.length :: (p3 ++ (uriB ++ (k1 ++ (k2 ++ (k3 ++ []))))) := by
      rw [hBdef]; simp [List.append_assoc]
    have hl : (lead ++ nameB.length :: (p1 ++ (nameB ++ symB.length :: (p2 ++ symB)))).length
        = 8 + (4 + nameB.length) + (4 + symB.length) := by
      simp [hLead, hp1, hp2]; omega
    rw [e, ← hl]
    exact readLengthPrefixedString_spec _ p3 uriB _ hp3
  have hmint : jsSlice B
      (.num (8 + (4 + nameB.length) + (4 + symB.length) + (4 + uriB.length)))
      (.num (8 + (4 + nameB.length) + (4 + symB.length) + (4 + uriB.length) + 32))
      = k1 := by
    have e : B = (lead ++ nameB.length :: (p1 ++ (nameB ++ symB.length :: (p2 ++ (symB ++ uriB.length :: (p3 ++ uriB))))))
        ++ (k1 ++ (k2 ++ (k3 ++ []))) := by
      rw [hBdef]; simp [List.append_assoc]
    have hl : (lead ++ nameB.length :: (p1 ++ (nameB ++ symB.length :: (p2 ++ (symB ++ uriB.length :: (p3 ++ uriB)))))).length
        = 8 + (4 + nameB.length) + (4 + symB.length) + (4 + uriB.length) := by
      simp [hLead, hp1, hp2, hp3]; omega
    rw [e, ← hl, ← hk1]
    exact jsSlice_append _ k1 (k2 ++ (k3 ++ []))
  have hbond : jsSlice B
      (.num (8 + (4 + nameB.length) + (4 + symB.length) + (4 + uriB.length) + 32))
      (.num (8 + (4 + nameB.length) + (4 + symB.length) + (4 + uriB.length) + 32 + 32))
      = k2 := by
    have e : B = (lead ++ nameB.length :: (p1 ++ (nameB ++ symB.length :: (p2 ++ (symB ++ uriB.length :: (p3 ++ (uriB ++ k1)))))))
        ++ (k2 ++ (k3 ++ [])) := by
      rw [hBdef]; simp [List.append_assoc]
    have hl : (lead ++ nameB.length :: (p1 ++ (nameB ++ symB.length :: (p2 ++ (symB ++ uriB.length :: (p3 ++ (uriB ++ k1))))))).length
        = 8 + (4 + nameB.length) + (4 + symB.length) + (4 + uriB.length) + 32 := by
      simp [hLead, hp1, hp2, hp3, hk1]; omega
    rw [e, ← hl, ← hk2]
    exact jsSlice_append _ k2 (k3 ++ [])
  have huser : jsSlice B
      (.num (8 + (4 + nameB.length) + (4 + symB.length) + (4 + uriB.length) + 32 + 32))
      (.num (8 + (4 + nameB.length) + (4 + symB.length) + (4 + uriB.length) + 32 + 32 + 32))
      = k3 := by
    have e : B = (lead ++ nameB.length :: (p1 ++ (nameB ++ symB.length :: (p2 ++ (symB ++ uriB.length :: (p3 ++ (uriB ++ (k1 ++ k2))))))))
        ++ (k3 ++ []) := by
      rw [hBdef]; simp [List.append_assoc]
    have hl : (lead ++ nameB.length :: (p1 ++ (nameB ++ symB.length :: (p2 ++ (symB ++ uriB.length :: (p3 ++ (uriB ++ (k1 ++ k2)))))))).length
        = 8 + (4 + nameB.length) + (4 + symB.length) + (4 + uriB.length) + 32 + 32 := by
      simp [hLead, hp1, hp2, hp3, hk1, hk2]; omega
    rw [e, ← hl, ← hk3]
    exact jsSlice_append _ k3 []
  unfold decodeMint
  simp only [JsNum.addNat, Nat.zero_add]
  rw [h1]
  dsimp only
  rw [h2]
  dsimp only
  rw [h3]
  dsimp only
  rw [hmint, hbond, huser]


/-- Concrete witness for C3: a buffer built from one-byte name and symbol,
empty uri, and all-zero keys decodes to exactly those inputs. -/
theorem C3_decoder_roundtrip_witness :
    decodeMint (List.replicate 8 0 ++ [1] ++ [0, 0, 0] ++ [65]
        ++ [1] ++ [0, 0, 0] ++ [66]
        ++ [0] ++ [0, 0, 0] ++ []
        ++ List.replicate 32 7 ++ List.replicate 32 0 ++ List.replicate 32 9)
      = { name := [65], symbol := [66], uri := [],
          mintAddress := b58encode (List.replicate 32 7),
          bondingCurve := b58encode (List.replicate 32 0),
          user := b58encode (List.replicate 32 9) } := by
  have h := C3_decoder_roundtrip (List.replicate 8 0) [0, 0, 0] [0, 0, 0] [0, 0, 0]
    [65] [66] [] (List.replicate 32 7) (List.replicate 32 0) (List.replicate 32 9)
    (by decide) (by decide) (by decide) (by decide) (by decide) (by decide) (by decide)
    (by decide) (by decide) (by decide)
  simpa using h

/-! ## The transaction fetcher (`extractTransactionInfo` in `src/pumpfinder.ts`)

The RPC collaborator is modelled as an oracle mapping the attempt number
to that attempt's response.  Timing is modelled by returning, besides the
result, the number of attempts made and the list of pause durations (ms)
taken between attempts. -/

/-- The `meta` object of a parsed transaction. -/
structure TxMeta where
  logMessages : Option (List String)
deriving DecidableEq, Repr

/-- A parsed transaction: `meta` and the top-level `blockTime` (seconds). -/
structure Tx where
  meta : Option TxMeta
  blockTime : Option Nat
deriving DecidableEq, Repr

/-- One response of `connection.getParsedTransaction`: either the call
throws, or it resolves with a possibly-`null` transaction. -/
inductive RpcResp where
  | throwErr
  | ok (tx : Option Tx)
deriving DecidableEq, Repr

/-- The resolved record `{signature, tokenAddress, timestamp}`; the
timestamp is the epoch-millisecond value of the ISO string (or absent). -/
structure TxRec where
  signature : String
  tokenAddress : String
  timestamp : Option Nat
deriving DecidableEq, Repr

/-- `ExtractedResult` of `pumpfinder.ts`: the record, `{skipped: true}`,
or `null`. -/
inductive ExtractedResult where
  | found (r : TxRec)
  | skipped
  | nullResult
deriving DecidableEq, Repr

/-- The guard `!tx?.meta?.logMessages`: returns the log lines and the
transaction's `blockTime` when all of `tx`, `tx.meta`, `tx.meta.logMessages`
are present (an empty log array is truthy in JS and hence accepted). -/
def getLogs : Option Tx → Option (List String × Option Nat)
  | none => none
  | some tx =>
    match tx.meta with
    | none => none
    | some m =>
      match m.logMessages with
      | none => none
      | some logs => some (logs, tx.blockTime)

/-- `tx.blockTime ? new Date(tx.blockTime * 1000).toISOString() : null`,
with the ISO string abstracted to its epoch-millisecond value.  Note the
JS truthiness test: a present `blockTime` of `0` also yields `null`. -/
def jsBlockTime : Option Nat → Option Nat
  | none => none
  | some t => if t ≠ 0 then some (1000 * t) else none

/-- The success path of `extractTransactionInfo` (lines 53–64): decode the
logs, derive the timestamp, and classify as skipped (no decodable mint or
falsy `mintAddress`) or resolved. -/
def resolveTx (signature : String) (logs : List String) (blockTimeRaw : Option Nat) :
    ExtractedResult :=
  let mint := processMintLog logs
  let blockTime := jsBlockTime blockTimeRaw
  match mint with
  | none => .skipped
  | some m =>
    if m.mintAddress = "" then .skipped
    else .found ⟨signature, m.mintAddress, blockTime⟩

/-- `extractTransactionInfo`: fetch via the oracle; on a thrown fetch or
missing log data retry (after a 100 ms pause) while `attempt < 3`,
otherwise return `null`.  Returns `(result, attemptsMade, pauses)`. -/
def extractTransactionInfo (oracle : Nat → RpcResp) (signature : String) (attempt : Nat) :
    ExtractedResult × Nat × List Nat :=
  match oracle attempt with
  | .throwErr =>
    if _h : attempt < 3 then
      let r := extractTransactionInfo oracle signature (attempt + 1)
      (r.1, r.2.1 + 1, 100 :: r.2.2)
    else
      (.nullResult, 1, [])
  | .ok txo =>
    match getLogs txo with
    | none =>
      if _h : attempt < 3 then
        let r := extractTransactionInfo oracle signature (attempt + 1)
        (r.1, r.2.1 + 1, 100 :: r.2.2)
      else
        (.nullResult, 1, [])
    | some (logs, bt) => (resolveTx signature logs bt, 1, [])
termination_by 3 - attempt
decreasing_by all_goals omega

/-- A response on which the fetcher retries: a thrown call or missing
log data. -/
def isRetryFailure : RpcResp → Bool
  | .throwErr => true
  | .ok txo => (getLogs txo).isNone

/-- Unfolding: a retryable failure below the attempt cap recurses. -/
theorem extract_fail_step (oracle : Nat → RpcResp) (sig : String) (attempt : Nat)
    (hlt : attempt < 3) (hf : isRetryFailure (oracle attempt) = true) :
    extractTransactionInfo oracle sig attempt =
      ((extractTransactionInfo oracle sig (attempt + 1)).1,
       (extractTransactionInfo oracle sig (attempt + 1)).2.1 + 1,
       100 :: (extractTransactionInfo oracle sig (attempt + 1)).2.2) := by
  rcases ho : oracle attempt with _ | txo
  · rw [extractTransactionInfo.eq_def, ho]
    simp [hlt]
  · rw [ho] at hf
    have hf' : getLogs txo = none := by simpa [isRetryFailure] using hf
    rw [extractTransactionInfo.eq_def, ho]
    dsimp only
    rw [hf']
    simp [hlt]

/-- Unfolding: a retryable failure at the attempt cap returns `null`. -/
theorem extract_fail_last (oracle : Nat → RpcResp) (sig : String) (attempt : Nat)
    (hge : ¬ attempt < 3) (hf : isRetryFailure (oracle attempt) = true) :
    extractTransactionInfo oracle sig attempt = (.nullResult, 1, []) := by
  rcases ho : oracle attempt with _ | txo
  · rw [extractTransactionInfo.eq_def, ho]
    simp [hge]
  · rw [ho] at hf
    have hf' : getLogs txo = none := by simpa [isRetryFailure] using hf
    rw [extractTransactionInfo.eq_def, ho]
    dsimp only
    rw [hf']
    simp [hge]

/-- Unfolding: a successful fetch with log data resolves immediately. -/
theorem extract_ok (oracle : Nat → RpcResp) (sig : String) (attempt : Nat)
    (tx : Option Tx) (logs : List String) (bt : Option Nat)
    (ho : oracle attempt = .ok tx) (hl : getLogs tx = some (logs, bt)) :
    extractTransactionInfo oracle sig attempt = (resolveTx sig logs bt, 1, []) := by
  rw [extractTransactionInfo.eq_def, ho]
  dsimp only
  rw [hl]

/-- Attempt/pause bookkeeping of the fetcher, by induction on the
remaining retry budget. -/
theorem extract_shape (oracle : Nat → RpcResp) (sig : String) :
    ∀ fuel attempt, 3 - attempt = fuel →
      (extractTransactionInfo oracle sig attempt).2.1 ≤ fuel + 1
      ∧ (extractTransactionInfo oracle sig attempt).2.2.length + 1
          = (extractTransactionInfo oracle sig attempt).2.1
      ∧ ∀ p ∈ (extractTransactionInfo oracle sig attempt).2.2, p = 100 := by
  intro fuel
  induction fuel with
  | zero =>
    intro attempt h
    have hge : ¬ attempt < 3 := by omega
    rcases ho : oracle attempt with _ | txo
    · rw [extractTransactionInfo.eq_def, ho]
      simp [hge]
    · rcases hl : getLogs txo with _ | ⟨logs, bt⟩
      · rw [extractTransactionInfo.eq_def, ho]
        dsimp only
        rw [hl]
        simp [hge]
      · rw [extractTransactionInfo.eq_def, ho]
        dsimp only
        rw [hl]
        simp
  | succ fuel ih =>
    intro attempt h
    have hlt : attempt < 3 := by omega
    have h' : 3 - (attempt + 1) = fuel := by omega
    obtain ⟨ih1, ih2, ih3⟩ := ih (attempt + 1) h'
    rcases ho : oracle attempt with _ | txo
    · have hf : isRetryFailure (oracle attempt) = true := by
        rw [ho]
        rfl
      rw [extract_fail_step oracle sig attempt hlt hf]
      dsimp only
      refine ⟨by omega, by simp only [List.length_cons]; omega, ?_⟩
      intro p hp
      rcases List.mem_cons.mp hp with h100 | htail
      · exact h100
      · exact ih3 p htail
    · rcases hl : getLogs txo with _ | ⟨logs, bt⟩
      · have hf : isRetryFailure (oracle attempt) = true := by
          rw [ho]
          simp [isRetryFailure, hl]
        rw [extract_fail_step oracle sig attempt hlt hf]
        dsimp only
        refine ⟨by omega, by simp only [List.length_cons]; omega, ?_⟩
        intro p hp
        rcases List.mem_cons.mp hp with h100 | htail
        · exact h100
        · exact ih3 p htail
      · rw [extract_ok oracle sig attempt txo logs bt ho hl]
        dsimp only
        refine ⟨by omega, by simp, by simp⟩

/-! ## Claim C5 — retry budget -/

/-- C5.  For every oracle: at most 3 total attempts are made; the pauses
taken number one fewer than the attempts and are all exactly 100 ms (no
backoff growth); an always-failing operation is attempted exactly 3 times
and yields `null` (`Failed`); an operation that fails twice and succeeds
on the third attempt yields the successful result after exactly 3
attempts. -/
theorem C5_retry_budget (oracle : Nat → RpcResp) (sig : String) :
    (extractTransactionInfo oracle sig 1).2.1 ≤ 3
    ∧ (extractTransactionInfo oracle sig 1).2.2.length + 1
        = (extractTransactionInfo oracle sig 1).2.1
    ∧ (∀ p ∈ (extractTransactionInfo oracle sig 1).2.2, p = 100)
    ∧ ((∀ a, isRetryFailure (oracle a) = true) →
        extractTransactionInfo oracle sig 1 = (.nullResult, 3, [100, 100]))
    ∧ (∀ tx logs bt, isRetryFailure (oracle 1) = true → isRetryFailure (oracle 2) = true →
        oracle 3 = .ok tx → getLogs tx = some (logs, bt) →
        extractTransactionInfo oracle sig 1 = (resolveTx sig logs bt, 3, [100, 100])) := by
  obtain ⟨h1, h2, h3⟩ := extract_shape oracle sig 2 1 rfl
  refine ⟨h1, h2, h3, ?_, ?_⟩
  · intro hall
    rw [extract_fail_step oracle sig 1 (by omega) (hall 1),
        extract_fail_step oracle sig 2 (by omega) (hall 2),
        extract_fail_last oracle sig 3 (by omega) (hall 3)]
  · intro tx logs bt hf1 hf2 ho3 hl
    rw [extract_fail_step oracle sig 1 (by omega) hf1,
        extract_fail_step oracle sig 2 (by omega) hf2,
        extract_ok oracle sig 3 tx logs bt ho3 hl]

/-- An oracle whose fetch always throws. -/
def oracleAllFail : Nat → RpcResp := fun _ => .throwErr

/-- A transaction with (empty) log data and block time 5. -/
def txThird : Tx := ⟨some ⟨some []⟩, some 5⟩

/-- An oracle that throws on the first two attempts and succeeds on the
third. -/
def oracleThirdOk : Nat → RpcResp := fun a => if a < 3 then .throwErr else .ok (some txThird)

/-- Witness for C5 at concrete oracles: always-fail gives `null` after 3
attempts and two 100 ms pauses; fail-fail-succeed gives the resolved
classification of the third response. -/
theorem C5_retry_budget_witness :
    extractTransactionInfo oracleAllFail "sig" 1 = (.nullResult, 3, [100, 100])
    ∧ extractTransactionInfo oracleThirdOk "sig" 1 = (.skipped, 3, [100, 100]) := by
  constructor
  · exact (C5_retry_budget oracleAllFail "sig").2.2.2.1 (fun a => rfl)
  · have h := (C5_retry_budget oracleThirdOk "sig").2.2.2.2 (some txThird) [] (some 5)
      (by decide) (by decide) (by decide) (by decide)
    exact h.trans (by decide)

/-! ## Claim C8 — timestamp derivation -/

/-- A log pair whose payload decodes to a mint with non-empty
`mintAddress` (`"1111"`, the base58 encoding of four zero bytes). -/
def zeroTimeLogs : List String :=
  [programSuccessLine, "Program data: G3KpTd7rY3AAAAAAAAAAAAAAAAAAAAAA"]

/-- C8 counterexample.  The claim says the timestamp is absent iff the
source provided no execution time; but the code tests `tx.blockTime` for
truthiness, so a provided execution time of `0` also yields an absent
timestamp: the transaction resolves with `timestamp = none` although
`blockTime = some 0` was provided. -/
theorem C8_timestamp_counterexample :
    resolveTx "sig" zeroTimeLogs (some 0) = .found ⟨"sig", "1111", none⟩
    ∧ (some 0 : Option Nat) ≠ none := by
  exact ⟨by decide, by decide⟩

/-- C8 (amended).  For every successfully fetched transaction whose logs
decode to an event with a usable (non-empty) token identifier, the
resolved outcome's timestamp is derived from the transaction's execution
time `t` (seconds) as the millisecond value `1000 * t` of the ISO-8601
conversion whenever `t` is present and non-zero, and the timestamp is
absent iff the source provided no execution time or provided the (falsy)
execution time `0`. -/
theorem C8_timestamp_amended (oracle : Nat → RpcResp) (sig : String)
    (tx : Option Tx) (logs : List String) (bt : Option Nat) (m : Mint)
    (h0 : oracle 1 = .ok tx) (h1 : getLogs tx = some (logs, bt))
    (h2 : processMintLog logs = some m) (h3 : m.mintAddress ≠ "") :
    extractTransactionInfo oracle sig 1 = (.found ⟨sig, m.mintAddress, jsBlockTime bt⟩, 1, [])
    ∧ (jsBlockTime bt = none ↔ (bt = none ∨ bt = some 0))
    ∧ (∀ t, bt = some t → t ≠ 0 → jsBlockTime bt = some (1000 * t)) := by
  refine ⟨?_, ?_, ?_⟩
  · rw [extract_ok oracle sig 1 tx logs bt h0 h1]
    simp [resolveTx, h2, h3]
  · rcases bt with _ | t
    · simp [jsBlockTime]
    · by_cases ht : t = 0
      · subst ht
        simp [jsBlockTime]
      · simp [jsBlockTime, ht]
  · intro t hbt ht
    subst hbt
    simp [jsBlockTime, ht]

/-- The mint decoded from `zeroTimeLogs`. -/
def mintZero : Mint := ⟨[], [], [], "1111", "", ""⟩

/-- An oracle resolving immediately with log data and block time 5. -/
def oracleResolved : Nat → RpcResp :=
  fun _ => .ok (some ⟨some ⟨some zeroTimeLogs⟩, some 5⟩)

/-- Witness for the amended C8 at a concrete resolved transaction. -/
theorem C8_timestamp_amended_witness :
    extractTransactionInfo oracleResolved "sig" 1
      = (.found ⟨"sig", mintZero.mintAddress, jsBlockTime (some 5)⟩, 1, [])
    ∧ (jsBlockTime (some 5) = none ↔ ((some 5 : Option Nat) = none ∨ (some 5 : Option Nat) = some 0))
    ∧ (∀ t, (some 5 : Option Nat) = some t → t ≠ 0 → jsBlockTime (some 5) = some (1000 * t)) := by
  exact C8_timestamp_amended oracleResolved "sig" (some ⟨some ⟨some zeroTimeLogs⟩, some 5⟩)
    zeroTimeLogs (some 5) mintZero rfl rfl (by decide) (by decide)

/-! ## The batch pipeline (`main` in `src/pumpfinder.ts`)

A slice's worth of fetch outcomes is a `List ExtractedResult` (in
completion order); the per-slice classification, sort, and aggregate
update are modelled on it.  Timestamps are compared by their
epoch-millisecond values, as `new Date(ts).getTime()` does. -/

/-- The sort key `new Date(tx.timestamp).getTime()` (only applied to
records whose timestamp is present). -/
def tsKey (r : TxRec) : Nat := r.timestamp.getD 0

/-- Stable insertion of `r` behind all already-sorted records with a key
not greater than its own (JS `Array.prototype.sort` is stable). -/
def insertByTs (r : TxRec) : List TxRec → List TxRec
  | [] => [r]
  | x :: xs => if tsKey x < tsKey r then x :: insertByTs r xs else r :: x :: xs

/-- `.sort((a, b) => aTime - bTime)`: stable sort ascending by timestamp. -/
def sortByTs : List TxRec → List TxRec
  | [] => []
  | x :: xs => insertByTs x (sortByTs xs)

/-- The first type-guard filter: keep records (`tx !== null` and not
`"skipped" in tx`). -/
def getRec : ExtractedResult → Option TxRec
  | .found r => some r
  | _ => none

/-- `tx && "skipped" in tx`. -/
def isSkippedFlag : ExtractedResult → Bool
  | .skipped => true
  | _ => false

/-- `validMints`: records, with a present timestamp, sorted ascending. -/
def validMints (parsed : List ExtractedResult) : List TxRec :=
  sortByTs ((parsed.filterMap getRec).filter (fun r => r.timestamp.isSome))

/-- `skippedCount`. -/
def skippedCount (parsed : List ExtractedResult) : Nat :=
  (parsed.filter isSkippedFlag).length

/-- The naming-convention token identifier suffix. -/
def PUMP_SUFFIX : String := "pump"

/-- `tx.tokenAddress.endsWith("pump")`. -/
def isPump (r : TxRec) : Bool := jsEndsWith r.tokenAddress PUMP_SUFFIX

/-- `pumpCAs`: the sorted valid records whose address has the suffix. -/
def pumpCAs (parsed : List ExtractedResult) : List TxRec :=
  (validMints parsed).filter isPump

/-- The `oldestPumpToken` record `{tokenAddress, timestamp}`. -/
structure OldestRec where
  tokenAddress : String
  timestamp : Nat
deriving DecidableEq, Repr

/-- The body of the `for (const tx of pumpCAs)` loop: if the timestamp is
present (it always is for `pumpCAs` members) and strictly earlier than the
current oldest (or there is none), replace the current oldest. -/
def updateOldest (cur : Option OldestRec) (tx : TxRec) : Option OldestRec :=
  match tx.timestamp with
  | none => cur
  | some t =>
    match cur with
    | none => some ⟨tx.tokenAddress, t⟩
    | some o => if t < o.timestamp then some ⟨tx.tokenAddress, t⟩ else some o

/-- The running aggregate of `main`. -/
structure Agg where
  totalPumpCount : Nat
  totalValid : Nat
  totalSkipped : Nat
  oldestPumpToken : Option OldestRec
deriving DecidableEq, Repr

/-- The aggregate before the first slice. -/
def initAgg : Agg := ⟨0, 0, 0, none⟩

/-- One iteration of the batch loop: classify, count, and fold the
`pumpCAs` through the oldest-record update. -/
def processSlice (agg : Agg) (parsed : List ExtractedResult) : Agg :=
  { totalPumpCount := agg.totalPumpCount + (pumpCAs parsed).length
    totalValid := agg.totalValid + (validMints parsed).length
    totalSkipped := agg.totalSkipped + skippedCount parsed
    oldestPumpToken := (pumpCAs parsed).foldl updateOldest agg.oldestPumpToken }

/-- The whole batch loop over all slices. -/
def runPipeline (slices : List (List ExtractedResult)) : Agg :=
  slices.foldl processSlice initAgg

/-- The final console report: the oldest matching record, or the explicit
"No pumpfun token ending in 'pump' was found" message. -/
inductive FinalReport where
  | foundOldest (tokenAddress : String) (timestamp : Nat)
  | noneFound
deriving DecidableEq, Repr

/-- Producing the final report from the aggregate. -/
def finalReport (agg : Agg) : FinalReport :=
  match agg.oldestPumpToken with
  | some o => .foundOldest o.tokenAddress o.timestamp
  | none => .noneFound

/-- The matching records of one slice, in completion order (resolved,
timestamp present, suffix matches): the candidates for "oldest". -/
def sliceCandidates (parsed : List ExtractedResult) : List TxRec :=
  ((parsed.filterMap getRec).filter (fun r => r.timestamp.isSome)).filter isPump

/-- All matching records across all slices. -/
def allCandidates (slices : List (List ExtractedResult)) : List TxRec :=
  slices.flatMap sliceCandidates

/-! ### Permutation and fold lemmas for the pipeline -/

/-- Insertion produces a permutation. -/
theorem insertByTs_perm (r : TxRec) (l : List TxRec) : (insertByTs r l).Perm (r :: l) := by
  induction l with
  | nil => rfl
  | cons x xs ih =>
    rw [insertByTs]
    by_cases hx : tsKey x < tsKey r
    · simp only [hx, if_true]
      exact (ih.cons x).trans (List.Perm.swap r x xs)
    · simp only [hx, if_false]
      exact List.Perm.refl _

/-- Sorting produces a permutation. -/
theorem sortByTs_perm (l : List TxRec) : (sortByTs l).Perm l := by
  induction l with
  | nil => rfl
  | cons x xs ih =>
    rw [sortByTs]
    exact (insertByTs_perm x (sortByTs xs)).trans (ih.cons x)

/-- The `pumpCAs` of a slice are a permutation of its candidates. -/
theorem pumpCAs_perm (parsed : List ExtractedResult) :
    (pumpCAs parsed).Perm (sliceCandidates parsed) := by
  unfold pumpCAs sliceCandidates validMints
  exact (sortByTs_perm _).filter isPump

/-- A record with an absent timestamp never changes the current oldest. -/
theorem updateOldest_none_ts (cur : Option OldestRec) (tx : TxRec)
    (h : tx.timestamp = none) : updateOldest cur tx = cur := by
  simp [updateOldest, h]

/-- The fold of `updateOldest` is `none` exactly when it started at `none`
and saw only absent timestamps. -/
theorem foldl_updateOldest_eq_none (l : List TxRec) :
    ∀ cur, l.foldl updateOldest cur = none ↔ (cur = none ∧ ∀ r ∈ l, r.timestamp = none) := by
  induction l with
  | nil => simp
  | cons x xs ih =>
    intro cur
    rw [List.foldl_cons, ih]
    constructor
    · rintro ⟨hupd, hall⟩
      rcases hx : x.timestamp with _ | t
      · rw [updateOldest_none_ts cur x hx] at hupd
        exact ⟨hupd, fun r hr => by
          rcases List.mem_cons.mp hr with rfl | hm
          · exact hx
          · exact hall r hm⟩
      · exfalso
        rcases hc : cur with _ | o <;> rw [updateOldest, hx, hc] at hupd
        · exact Option.some_ne_none _ hupd
        · by_cases hlt : t < o.timestamp <;> simp [hlt] at hupd
    · rintro ⟨hcur, hall⟩
      have hx := hall x (List.mem_cons_self x xs)
      rw [updateOldest_none_ts cur x hx]
      exact ⟨hcur, fun r hr => hall r (List.mem_cons_of_mem x hr)⟩

/-- Properties of a non-`none` fold of `updateOldest`: the result either
originates from a folded record or is the unchanged start value, its
timestamp is a lower bound of every present timestamp folded over, and it
never exceeds the start value's timestamp. -/
theorem foldl_updateOldest_eq_some (l : List TxRec) :
    ∀ cur o, l.foldl updateOldest cur = some o →
      ((∃ r ∈ l, r.tokenAddress = o.tokenAddress ∧ r.timestamp = some o.timestamp)
        ∨ cur = some o)
      ∧ (∀ r ∈ l, ∀ t, r.timestamp = some t → o.timestamp ≤ t)
      ∧ (∀ c, cur = some c → o.timestamp ≤ c.timestamp) := by
  induction l with
  | nil =>
    intro cur o h
    simp only [List.foldl_nil] at h
    refine ⟨Or.inr h, by simp, ?_⟩
    intro c hc
    rw [h] at hc
    cases Option.some_injective _ hc
    exact Nat.le_refl _
  | cons x xs ih =>
    intro cur o h
    rw [List.foldl_cons] at h
    obtain ⟨horig, hmin, hcur⟩ := ih (updateOldest cur x) o h
    have hstepLe : ∀ t, x.timestamp = some t → o.timestamp ≤ t := by
      intro t hx
      rcases hc : cur with _ | c
      · have : updateOldest cur x = some ⟨x.tokenAddress, t⟩ := by
          rw [updateOldest, hx, hc]
        simpa using hcur _ this
      · by_cases hlt : t < c.timestamp
        · have : updateOldest cur x = some ⟨x.tokenAddress, t⟩ := by
            rw [updateOldest, hx, hc]
            simp [hlt]
          simpa using hcur _ this
        · have : updateOldest cur x = some c := by
            rw [updateOldest, hx, hc]
            simp [hlt]
          have := hcur _ this
          omega
    refine ⟨?_, ?_, ?_⟩
    · rcases horig with hin | hupd
      · obtain ⟨r, hr, h1, h2⟩ := hin
        exact Or.inl ⟨r, List.mem_cons_of_mem x hr, h1, h2⟩
      · rcases hx : x.timestamp with _ | t
        · rw [updateOldest_none_ts cur x hx] at hupd
          exact Or.inr hupd
        · rcases hc : cur with _ | c
          · rw [updateOldest, hx, hc] at hupd
            cases Option.some_injective _ hupd
            exact Or.inl ⟨x, List.mem_cons_self x xs, rfl, hx⟩
          · rw [updateOldest, hx, hc] at hupd
            dsimp only at hupd
            by_cases hlt : t < c.timestamp
            · rw [if_pos hlt] at hupd
              cases Option.some_injective _ hupd
              exact Or.inl ⟨x, List.mem_cons_self x xs, rfl, hx⟩
            · rw [if_neg hlt] at hupd
              exact Or.inr hupd
    · intro r hr t hrt
      rcases List.mem_cons.mp hr with rfl | hm
      · exact hstepLe t hrt
      · exact hmin r hm t hrt
    · intro c hc
      subst hc
      rcases hx : x.timestamp with _ | t
      · exact hcur c (updateOldest_none_ts _ x hx)
      · by_cases hlt : t < c.timestamp
        · have : updateOldest (some c) x = some ⟨x.tokenAddress, t⟩ := by
            rw [updateOldest, hx]
            simp [hlt]
          have := hcur _ this
          simp at this
          omega
        · have : updateOldest (some c) x = some c := by
            rw [updateOldest, hx]
            simp [hlt]
          exact hcur c this

/-- The pipeline's final oldest record is the fold of `updateOldest` over
the concatenation of every slice's `pumpCAs`, started at `none`. -/
theorem runPipeline_oldest (slices : List (List ExtractedResult)) :
    (runPipeline slices).oldestPumpToken
      = (slices.flatMap pumpCAs).foldl updateOldest none := by
  have hgen : ∀ (ls : List (List ExtractedResult)) (agg : Agg),
      (ls.foldl processSlice agg).oldestPumpToken
        = (ls.flatMap pumpCAs).foldl updateOldest agg.oldestPumpToken := by
    intro ls
    induction ls with
    | nil => intro agg; rfl
    | cons s ss ih =>
      intro agg
      rw [List.foldl_cons, ih, List.flatMap_cons, List.foldl_append]
      rfl
  exact hgen slices initAgg

/-- Membership in the per-slice `pumpCAs` concatenation coincides with
membership in `allCandidates`. -/
theorem mem_flatMap_pumpCAs (slices : List (List ExtractedResult)) (r : TxRec) :
    r ∈ slices.flatMap pumpCAs ↔ r ∈ allCandidates slices := by
  unfold allCandidates
  rw [List.mem_flatMap, List.mem_flatMap]
  constructor
  · rintro ⟨s, hs, hr⟩
    exact ⟨s, hs, (pumpCAs_perm s).mem_iff.mp hr⟩
  · rintro ⟨s, hs, hr⟩
    exact ⟨s, hs, (pumpCAs_perm s).mem_iff.mpr hr⟩

/-- Every candidate matches the suffix and has a present timestamp. -/
theorem allCandidates_spec (slices : List (List ExtractedResult)) (r : TxRec)
    (h : r ∈ allCandidates slices) : isPump r = true ∧ r.timestamp.isSome = true := by
  unfold allCandidates at h
  rw [List.mem_flatMap] at h
  obtain ⟨s, _, hs⟩ := h
  unfold sliceCandidates at hs
  rw [List.mem_filter] at hs
  obtain ⟨hs1, hs2⟩ := hs
  rw [List.mem_filter] at hs1
  exact ⟨hs2, hs1.2⟩

/-! ## Claim C1 — the reported globally oldest matching record -/

/-- C1.  After all slices are processed: the final report is the explicit
"none found" message exactly when no resolved, timestamp-bearing,
suffix-matching record exists across the whole run; otherwise the reported
record matches the suffix, is one of those records, and its timestamp is
the earliest among all of them.  The aggregate's current oldest is
replaced only by a strictly earlier timestamp. -/
theorem C1_oldest_report (slices : List (List ExtractedResult)) :
    (finalReport (runPipeline slices) = .noneFound ↔ allCandidates slices = [])
    ∧ (∀ a t, finalReport (runPipeline slices) = .foundOldest a t →
        jsEndsWith a PUMP_SUFFIX = true
        ∧ (∃ r ∈ allCandidates slices, r.tokenAddress = a ∧ r.timestamp = some t)
        ∧ (∀ r ∈ allCandidates slices, ∀ u, r.timestamp = some u → t ≤ u))
    ∧ (∀ o tx t, tx.timestamp = some t → ¬ t < o.timestamp →
        updateOldest (some o) tx = some o) := by
  have hnone_iff : (runPipeline slices).oldestPumpToken = none ↔ allCandidates slices = [] := by
    rw [runPipeline_oldest, foldl_updateOldest_eq_none]
    constructor
    · rintro ⟨-, hall⟩
      rw [List.eq_nil_iff_forall_not_mem]
      intro r hr
      have h1 := (allCandidates_spec slices r hr).2
      have h2 := hall r ((mem_flatMap_pumpCAs slices r).mpr hr)
      rw [h2] at h1
      exact Bool.false_ne_true h1
    · intro hnil
      refine ⟨rfl, fun r hr => ?_⟩
      rw [mem_flatMap_pumpCAs, hnil] at hr
      exact absurd hr (List.not_mem_nil r)
  refine ⟨?_, ?_, ?_⟩
  · unfold finalReport
    rcases hold : (runPipeline slices).oldestPumpToken with _ | o
    · simpa [hold] using hnone_iff.mp hold
    · simp only
      constructor
      · intro h
        exact absurd h (by simp)
      · intro h
        rw [← hnone_iff] at h
        rw [h] at hold
        exact absurd hold (by simp)
  · intro a t hrep
    rcases hold : (runPipeline slices).oldestPumpToken with _ | o
    · rw [finalReport, hold] at hrep
      exact absurd hrep (by simp)
    · rw [finalReport, hold] at hrep
      simp only [FinalReport.foundOldest.injEq] at hrep
      obtain ⟨ha, ht⟩ := hrep
      rw [runPipeline_oldest] at hold
      obtain ⟨horig, hmin, -⟩ := foldl_updateOldest_eq_some _ none o hold
      rcases horig with hin | habs
      · obtain ⟨r, hr, h1, h2⟩ := hin
        rw [mem_flatMap_pumpCAs] at hr
        have hspec := (allCandidates_spec slices r hr).1
        refine ⟨?_, ⟨r, hr, by rw [h1, ha], by rw [h2, ht]⟩, ?_⟩
        · rw [← ha, ← h1]
          exact hspec
        · intro r' hr' u hu
          rw [← ht]
          exact hmin r' ((mem_flatMap_pumpCAs slices r').mpr hr') u hu
      · exact absurd habs (by simp)
  · intro o tx t hts hlt
    rw [updateOldest, hts]
    simp [hlt]

/-- Witness for C1 at a concrete two-slice run with one matching record. -/
theorem C1_oldest_report_witness :
    jsEndsWith "Xpump" PUMP_SUFFIX = true
    ∧ (∃ r ∈ allCandidates [[.found ⟨"s1", "Xpump", some 5⟩], [.skipped]],
        r.tokenAddress = "Xpump" ∧ r.timestamp = some 5)
    ∧ (∀ r ∈ allCandidates [[.found ⟨"s1", "Xpump", some 5⟩], [.skipped]],
        ∀ u, r.timestamp = some u → 5 ≤ u) :=
  (C1_oldest_report [[.found ⟨"s1", "Xpump", some 5⟩], [.skipped]]).2.1 "Xpump" 5 (by decide)

/-! ## Claim C7 — oldest-matching selection across two batches -/

/-- First batch of the C7 scenario: the record with timestamp T1 = 2000. -/
def cexSlice1 : List ExtractedResult := [.found ⟨"s1", "Apump", some 2000⟩]

/-- Second batch: the records with timestamps T2 = 1000 and T3 = 3000. -/
def cexSlice2 : List ExtractedResult :=
  [.found ⟨"s2", "Bpump", some 1000⟩, .found ⟨"s3", "Cpump", some 3000⟩]

/-- The two-batch C7 scenario. -/
def cexSlices : List (List ExtractedResult) := [cexSlice1, cexSlice2]

/-- C7 counterexample.  With three matching records of timestamps
T1 = 2000, T2 = 1000, T3 = 3000 (so T2 < T1 < T3) split over two batches,
the claim says the final oldest record has timestamp T1; the code instead
keeps the minimum, T2 = 1000 ≠ 2000 = T1. -/
theorem C7_oldest_counterexample :
    (1000 : Nat) < 2000 ∧ (2000 : Nat) < 3000
    ∧ (runPipeline cexSlices).oldestPumpToken = some ⟨"Bpump", 1000⟩
    ∧ (1000 : Nat) ≠ 2000 := by
  decide

/-- C7 (amended).  For any three matching-suffix records with timestamps
T2 < T1 < T3 distributed in any way over two batches, in any completion
order, the final aggregate's oldest matching record is the one with the
minimal timestamp T2 (not T1 as the claim stated). -/
theorem C7_oldest_selection_amended
    (sig1 sig2 sig3 a1 a2 a3 : String) (T1 T2 T3 : Nat)
    (l1 l2 : List ExtractedResult)
    (h21 : T2 < T1) (h13 : T1 < T3)
    (hcand : (allCandidates [l1, l2]).Perm
        [⟨sig1, a1, some T1⟩, ⟨sig2, a2, some T2⟩, ⟨sig3, a3, some T3⟩]) :
    (runPipeline [l1, l2]).oldestPumpToken = some ⟨a2, T2⟩ := by
  have hr2cand : (⟨sig2, a2, some T2⟩ : TxRec) ∈ allCandidates [l1, l2] :=
    hcand.mem_iff.mpr (by simp)
  have hr2L : (⟨sig2, a2, some T2⟩ : TxRec) ∈ ([l1, l2] : List (List ExtractedResult)).flatMap pumpCAs :=
    (mem_flatMap_pumpCAs _ _).mpr hr2cand
  rcases hfold : (([l1, l2] : List (List ExtractedResult)).flatMap pumpCAs).foldl updateOldest none
    with _ | o
  · rw [foldl_updateOldest_eq_none] at hfold
    have := hfold.2 _ hr2L
    simp at this
  · obtain ⟨horig, hmin, -⟩ := foldl_updateOldest_eq_some _ none o hfold
    have hle : o.timestamp ≤ T2 := hmin _ hr2L T2 rfl
    rcases horig with hin | habs
    · obtain ⟨r, hrL, h1, h2⟩ := hin
      have hrc : r ∈ allCandidates [l1, l2] := (mem_flatMap_pumpCAs _ _).mp hrL
      have hr3 := hcand.mem_iff.mp hrc
      simp only [List.mem_cons, List.not_mem_nil, or_false] at hr3
      rcases hr3 with rfl | rfl | rfl
      · simp only [Option.some.injEq] at h2
        omega
      · have ho : o = ⟨a2, T2⟩ := by
          obtain ⟨oa, ot⟩ := o
          simp only [Option.some.injEq] at h2
          dsimp at h1 h2
          rw [← h1, ← h2]
        rw [runPipeline_oldest, hfold, ho]
      · simp only [Option.some.injEq] at h2
        omega
    · exact absurd habs (by simp)

/-- Witness for the amended C7 at the concrete two-batch scenario. -/
theorem C7_oldest_selection_amended_witness :
    (runPipeline [cexSlice1, cexSlice2]).oldestPumpToken = some ⟨"Bpump", 1000⟩ :=
  C7_oldest_selection_amended "s1" "s2" "s3" "Apump" "Bpump" "Cpump" 2000 1000 3000
    cexSlice1 cexSlice2 (by decide) (by decide) (by decide)

/-! ## Claim C10 — resolved records with absent timestamps vanish -/

/-- C10.  Inserting, anywhere in a slice, a resolved outcome whose
timestamp is absent changes nothing: the per-slice aggregate update
(valid, skipped, and matching counts, and the oldest-record fold) and the
emitted sorted batch are identical with and without it — the record is
invisible in every output. -/
theorem C10_absent_timestamp_invisible (l1 l2 : List ExtractedResult) (r : TxRec) (agg : Agg)
    (h : r.timestamp = none) :
    processSlice agg (l1 ++ .found r :: l2) = processSlice agg (l1 ++ l2)
    ∧ validMints (l1 ++ .found r :: l2) = validMints (l1 ++ l2) := by
  have hv : validMints (l1 ++ .found r :: l2) = validMints (l1 ++ l2) := by
    unfold validMints
    congr 1
    simp [List.filterMap_append, List.filter_append, getRec, h]
  have hsk : skippedCount (l1 ++ .found r :: l2) = skippedCount (l1 ++ l2) := by
    unfold skippedCount
    simp [List.filter_append, isSkippedFlag]
  have hp : pumpCAs (l1 ++ .found r :: l2) = pumpCAs (l1 ++ l2) := by
    unfold pumpCAs
    rw [hv]
  refine ⟨?_, hv⟩
  unfold processSlice
  rw [hv, hsk, hp]

/-- Witness for C10: a concrete slice with one absent-timestamp resolved
record has identical aggregate update and emitted batch without it. -/
theorem C10_absent_timestamp_invisible_witness :
    processSlice initAgg
        ([.skipped] ++ .found ⟨"x", "ypump", none⟩ :: [.found ⟨"a", "bpump", some 3⟩])
      = processSlice initAgg ([.skipped] ++ [.found ⟨"a", "bpump", some 3⟩])
    ∧ validMints ([.skipped] ++ .found ⟨"x", "ypump", none⟩ :: [.found ⟨"a", "bpump", some 3⟩])
      = validMints ([.skipped] ++ [.found ⟨"a", "bpump", some 3⟩]) :=
  C10_absent_timestamp_invisible [.skipped] [.found ⟨"a", "bpump", some 3⟩]
    ⟨"x", "ypump", none⟩ initAgg rfl

/-! ## The bounded worker pool (`withConcurrency` in `src/pumpfinder.ts`)

`withConcurrency` starts `concurrency` identical workers over a shared
cursor `index`.  Each worker synchronously checks `index < items.length`
and claims `index++` (no suspension point in between, so the claim is
atomic), awaits `handler(items[i])`, then synchronously pushes the result
and claims again.  The interleaving of the single-threaded event loop is
modelled by a step relation on pool states; workers are indistinguishable
and are therefore kept as a multiset of per-worker statuses.  `results`
records the claimed indices in completion (push) order; the value pushed
for index `i` is `handler items[i]`. -/

/-- Status of one worker: about to check the shared cursor, awaiting the
handler for its claimed index, or returned. -/
inductive WStatus where
  | claiming
  | awaiting (i : Nat)
  | finished
deriving DecidableEq, Repr

/-- The shared state of `withConcurrency`: the claim cursor, the pushed
result indices in completion order, and the workers. -/
structure PoolState where
  index : Nat
  results : List Nat
  workers : Multiset WStatus
deriving DecidableEq

/-- One scheduler step of the event loop, for an item list of length
`len`: a checking worker claims the next index (cursor below `len`) or
returns; a worker whose handler completed pushes its result and, in the
same synchronous block, claims again or returns. -/
inductive PoolStep (len : Nat) : PoolState → PoolState → Prop where
  | claim (idx : Nat) (res : List Nat) (ws : Multiset WStatus) (h : idx < len) :
      PoolStep len ⟨idx, res, .claiming ::ₘ ws⟩ ⟨idx + 1, res, .awaiting idx ::ₘ ws⟩
  | exitEmpty (idx : Nat) (res : List Nat) (ws : Multiset WStatus) (h : len ≤ idx) :
      PoolStep len ⟨idx, res, .claiming ::ₘ ws⟩ ⟨idx, res, .finished ::ₘ ws⟩
  | completeClaim (idx : Nat) (res : List Nat) (ws : Multiset WStatus) (i : Nat) (h : idx < len) :
      PoolStep len ⟨idx, res, .awaiting i ::ₘ ws⟩ ⟨idx + 1, res ++ [i], .awaiting idx ::ₘ ws⟩
  | completeExit (idx : Nat) (res : List Nat) (ws : Multiset WStatus) (i : Nat) (h : len ≤ idx) :
      PoolStep len ⟨idx, res, .awaiting i ::ₘ ws⟩ ⟨idx, res ++ [i], .finished ::ₘ ws⟩

/-- The initial pool: cursor 0, no results, `conc` workers about to claim
(`Array.from({length: concurrency}, () => worker())`). -/
def initPool (conc : Nat) : PoolState := ⟨0, [], Multiset.replicate conc .claiming⟩

/-- States reachable by the event loop from the initial pool. -/
def PoolReachable (len conc : Nat) (s : PoolState) : Prop :=
  Relation.ReflTransGen (PoolStep len) (initPool conc) s

/-- `Promise.all` has resolved: every worker returned. -/
def AllDone (s : PoolState) : Prop := ∀ w ∈ s.workers, w = WStatus.finished

/-- The claimed index of one worker, as a multiset (empty if none). -/
def claimsOf : WStatus → Multiset Nat
  | .awaiting i => {i}
  | _ => 0

/-- The in-flight claimed indices of the pool. -/
def inflight (ws : Multiset WStatus) : Multiset Nat := ws.bind claimsOf

/-- `inflight` distributes over worker insertion. -/
theorem inflight_cons (w : WStatus) (ws : Multiset WStatus) :
    inflight (w ::ₘ ws) = claimsOf w + inflight ws :=
  Multiset.cons_bind w ws claimsOf

/-- The pool invariant: the worker count is constant, the cursor never
passes the end, the pushed and in-flight indices together are exactly the
claimed range `[0, index)` each exactly once, and a returned worker
certifies that the cursor has reached the end. -/
def PoolInv (len conc : Nat) (s : PoolState) : Prop :=
  Multiset.card s.workers = conc
  ∧ s.index ≤ len
  ∧ ((s.results : Multiset Nat) + inflight s.workers = Multiset.range s.index)
  ∧ (WStatus.finished ∈ s.workers → s.index = len)

/-- The initial pool satisfies the invariant. -/
theorem poolInv_init (len conc : Nat) : PoolInv len conc (initPool conc) := by
  have hz : inflight (Multiset.replicate conc WStatus.claiming) = 0 := by
    induction conc with
    | zero => simp [inflight]
    | succ n ih =>
      rw [Multiset.replicate_succ, inflight_cons, ih]
      rfl
  refine ⟨Multiset.card_replicate conc _, Nat.zero_le len, ?_, ?_⟩
  · simp [initPool, hz]
  · intro hmem
    exact absurd (Multiset.eq_of_mem_replicate hmem) (by simp)

/-- Every scheduler step preserves the invariant. -/
theorem poolInv_step (len conc : Nat) (s s' : PoolState)
    (hstep : PoolStep len s s') (hinv : PoolInv len conc s) : PoolInv len conc s' := by
  obtain ⟨hcard, hidx, hacct, hdone⟩ := hinv
  cases hstep with
  | claim idx res ws h =>
    dsimp only at hcard hidx hacct hdone ⊢
    rw [Multiset.card_cons] at hcard
    rw [inflight_cons] at hacct
    have hacct' : (res : Multiset Nat) + inflight ws = Multiset.range idx := by
      simpa [claimsOf] using hacct
    have hrange : Multiset.range (idx + 1) = idx ::ₘ Multiset.range idx :=
      Multiset.range_succ idx
    refine ⟨by rw [Multiset.card_cons]; exact hcard, by dsimp only; omega, ?_, ?_⟩
    · rw [inflight_cons]
      show (res : Multiset Nat) + ({idx} + inflight ws) = Multiset.range (idx + 1)
      rw [hrange, ← Multiset.singleton_add, ← hacct']
      abel
    · intro hmem
      rcases Multiset.mem_cons.mp hmem with heq | hmem'
      · exact absurd heq (by simp)
      · have := hdone (Multiset.mem_cons_of_mem hmem')
        omega
  | exitEmpty idx res ws h =>
    dsimp only at hcard hidx hacct hdone ⊢
    rw [Multiset.card_cons] at hcard
    rw [inflight_cons] at hacct
    refine ⟨by rw [Multiset.card_cons]; exact hcard, hidx, ?_, fun _ => by dsimp only; omega⟩
    rw [inflight_cons]
    show (res : Multiset Nat) + (claimsOf .claiming + inflight ws) = Multiset.range idx
    exact hacct
  | completeClaim idx res ws i h =>
    dsimp only at hcard hidx hacct hdone ⊢
    rw [Multiset.card_cons] at hcard
    rw [inflight_cons] at hacct
    have hacct' : (res : Multiset Nat) + ({i} + inflight ws) = Multiset.range idx := by
      simpa [claimsOf] using hacct
    have hrange : Multiset.range (idx + 1) = idx ::ₘ Multiset.range idx :=
      Multiset.range_succ idx
    refine ⟨by rw [Multiset.card_cons]; exact hcard, by dsimp only; omega, ?_, ?_⟩
    · rw [inflight_cons]
      show ((res ++ [i] : List Nat) : Multiset Nat) + ({idx} + inflight ws)
        = Multiset.range (idx + 1)
      rw [show ((res ++ [i] : List Nat) : Multiset Nat) = (res : Multiset Nat) + {i} from rfl]
      rw [hrange, ← Multiset.singleton_add, ← hacct']
      abel
    · intro hmem
      rcases Multiset.mem_cons.mp hmem with heq | hmem'
      · exact absurd heq (by simp)
      · have := hdone (Multiset.mem_cons_of_mem hmem')
        omega
  | completeExit idx res ws i h =>
    dsimp only at hcard hidx hacct hdone ⊢
    rw [Multiset.card_cons] at hcard
    rw [inflight_cons] at hacct
    have hacct' : (res : Multiset Nat) + ({i} + inflight ws) = Multiset.range idx := by
      simpa [claimsOf] using hacct
    refine ⟨by rw [Multiset.card_cons]; exact hcard, hidx, ?_, fun _ => by dsimp only; omega⟩
    rw [inflight_cons]
    show ((res ++ [i] : List Nat) : Multiset Nat) + (claimsOf .finished + inflight ws)
      = Multiset.range idx
    rw [show ((res ++ [i] : List Nat) : Multiset Nat) = (res : Multiset Nat) + {i} from rfl]
    rw [← hacct']
    show (res : Multiset Nat) + {i} + (0 + inflight ws) = (res : Multiset Nat) + ({i} + inflight ws)
    abel


/-- Every reachable pool state satisfies the invariant. -/
theorem poolInv_reachable (len conc : Nat) (s : PoolState)
    (h : PoolReachable len conc s) : PoolInv len conc s := by
  induction h with
  | refl => exact poolInv_init len conc
  | tail hab hbc ih => exact poolInv_step len conc _ _ hbc ih

/-- A returned worker pool holds no in-flight claims. -/
theorem inflight_eq_zero_of_done (ws : Multiset WStatus)
    (h : ∀ w ∈ ws, w = WStatus.finished) : inflight ws = 0 := by
  induction ws using Multiset.induction with
  | empty => rfl
  | cons w ws ih =>
    rw [inflight_cons, h w (Multiset.mem_cons_self w ws),
      ih (fun x hx => h x (Multiset.mem_cons_of_mem hx))]
    rfl

/-! ## Claim C4 — exactly one result per input item -/

/-- C4.  For every item list, every handler, and every concurrency ≥ 1:
whenever the event loop runs the pool to completion (all workers
returned, in any interleaving — including `concurrency > items.length`,
where the surplus workers find nothing to claim and return at once), the
output is a permutation of `items.map handler` — exactly one result per
input item, no index skipped, none processed twice — and has exactly
`items.length` entries. -/
theorem C4_runBounded_one_result_per_item {α β : Type} [Inhabited α]
    (items : List α) (handler : α → β) (conc : Nat) (s : PoolState)
    (hconc : 1 ≤ conc) (hreach : PoolReachable items.length conc s) (hdone : AllDone s) :
    (s.results.map (fun i => handler (items.getD i default))).Perm (items.map handler)
    ∧ s.results.length = items.length := by
  obtain ⟨hcard, hle, hacct, hfin⟩ := poolInv_reachable _ conc s hreach
  rw [inflight_eq_zero_of_done s.workers hdone, add_zero] at hacct
  have hne : s.workers ≠ 0 := by
    intro h0
    rw [h0] at hcard
    simp at hcard
    omega
  obtain ⟨w, hw⟩ := Multiset.exists_mem_of_ne_zero hne
  have hidx : s.index = items.length := hfin (by rw [← hdone w hw]; exact hw)
  rw [hidx] at hacct
  have hperm : s.results.Perm (List.range items.length) := Multiset.coe_eq_coe.mp hacct
  have heq : (List.range items.length).map (fun i => handler (items.getD i default))
      = items.map handler := by
    apply List.ext_getElem
    · simp
    · intro n h1 h2
      simp only [List.getElem_map, List.getElem_range]
      rw [List.getD_eq_getElem items default (by simpa using h2)]
  refine ⟨?_, ?_⟩
  · have := hperm.map (fun i => handler (items.getD i default))
    rw [heq] at this
    exact this
  · simpa using hperm.length_eq

/-- The completed one-item, one-worker pool. -/
def poolFinal : PoolState := ⟨1, [0], {WStatus.finished}⟩

/-- Witness for C4: a one-worker run over the single item `7` finishes
with exactly the one result for index 0. -/
theorem C4_runBounded_one_result_per_item_witness :
    (poolFinal.results.map (fun i => Nat.succ (([7] : List Nat).getD i default))).Perm
      (([7] : List Nat).map Nat.succ)
    ∧ poolFinal.results.length = ([7] : List Nat).length := by
  have s1 : PoolStep 1 (initPool 1) ⟨1, [], {WStatus.awaiting 0}⟩ :=
    PoolStep.claim 0 [] 0 (by decide)
  have s2 : PoolStep 1 ⟨1, [], {WStatus.awaiting 0}⟩ poolFinal :=
    PoolStep.completeExit 1 [] 0 0 (by decide)
  have hreach : PoolReachable 1 1 poolFinal :=
    Relation.ReflTransGen.tail (Relation.ReflTransGen.tail Relation.ReflTransGen.refl s1) s2
  exact C4_runBounded_one_result_per_item [7] Nat.succ 1 poolFinal (by decide) hreach
    (by intro w hw; simpa [poolFinal] using hw)

/-! ## Claim C9 — the concurrency cap -/

/-- `CONFIG.CONCURRENCY || 25`: any absent or falsy configured value
falls back to the default cap 25. -/
def CONCURRENCY (cfg : Option Nat) : Nat :=
  match cfg with
  | none => 25
  | some n => if n = 0 then 25 else n

/-- Each worker holds at most one in-flight claim. -/
theorem card_inflight_le (ws : Multiset WStatus) :
    Multiset.card (inflight ws) ≤ Multiset.card ws := by
  induction ws using Multiset.induction with
  | empty => simp [inflight]
  | cons w ws ih =>
    rw [inflight_cons]
    have hw : Multiset.card (claimsOf w) ≤ 1 := by
      cases w <;> simp [claimsOf]
    rw [Multiset.card_add, Multiset.card_cons]
    omega

/-- C9.  In every reachable state of the pool the number of in-flight
operations never exceeds the configured concurrency `conc` (there are
exactly `conc` workers, each with at most one claim); the configured cap
defaults to 25. -/
theorem C9_concurrency_cap (len conc : Nat) (s : PoolState)
    (h : PoolReachable len conc s) :
    Multiset.card (inflight s.workers) ≤ conc ∧ CONCURRENCY none = 25 := by
  have hinv := poolInv_reachable len conc s h
  exact ⟨le_trans (card_inflight_le s.workers) (le_of_eq hinv.1), rfl⟩

/-- Witness for C9 at the initial 25-worker pool. -/
theorem C9_concurrency_cap_witness :
    Multiset.card (inflight (initPool 25).workers) ≤ 25 ∧ CONCURRENCY none = 25 :=
  C9_concurrency_cap 0 25 (initPool 25) Relation.ReflTransGen.refl

/-! ## The signature paginator (`getSignatures` and the fetch loop of `main`) -/

/-- `TOTAL` of `pumpfinder.ts`: the target signature count. -/
def TOTAL : Nat := 20000

/-- `BATCH_SIZE`: the page size (and batch slice size). -/
def BATCH_SIZE : Nat := 1000

/-- The configured starting pagination cursor. -/
def START_BEFORE_SIGNATURE : String :=
  "nQWNjnJMVGFaqA7CzQQQMzM6gqacJTnzzFZHyKk1PM4H2axjR973jtMjvnVjVW7KjBPU1p7vBTZrAgsKtwozJZS"

/-- `getSignatures`: request up to `limit` signatures older than the
cursor from the RPC collaborator. -/
def getSignatures (rpc : String → Nat → List String) (before : String) (limit : Nat) :
    List String :=
  rpc before limit

/-- The signature-fetch loop of `main`: while fewer than `total`
signatures are collected, request `min batch (total − collected)`
signatures older than the cursor; stop on an empty page; otherwise append
the page and advance the cursor to the page's last signature. -/
def collectLoop (rpc : String → Nat → List String) (total batch : Nat)
    (before : String) (fetchedSignatures : List String) : List String :=
  if hloop : fetchedSignatures.length < total then
    let remaining := total - fetchedSignatures.length
    let limit := min batch remaining
    let sigs := getSignatures rpc before limit
    if hs : sigs = [] then
      fetchedSignatures
    else
      collectLoop rpc total batch (sigs.getLastD before) (fetchedSignatures ++ sigs)
  else
    fetchedSignatures
termination_by total - fetchedSignatures.length
decreasing_by
  have hpos : 0 <
      (getSignatures rpc before (min batch (total - fetchedSignatures.length))).length :=
    List.length_pos.mpr hs
  simp only [List.length_append]
  omega

/-- The whole pagination: start at the configured cursor with nothing
collected. -/
def collect (rpc : String → Nat → List String) (total batch : Nat) (start : String) :
    List String :=
  collectLoop rpc total batch start []

/-- The history strictly after the first occurrence of the cursor. -/
def afterCursor (history : List String) (c : String) : List String :=
  (history.dropWhile (fun s => s != c)).drop 1

/-- A mock signature source over a fixed, duplicate-free history: a
request returns up to `l` signatures strictly older than the cursor (the
first `l` for the starting cursor), as `getSignaturesForAddress` does. -/
def mkSrc (history : List String) (start : String) : String → Nat → List String :=
  fun c l => if c = start then history.take l else (afterCursor history c).take l

/-- In a duplicate-free history, the part after the `k`-th signature is
the `(k+1)`-th suffix. -/
theorem afterCursor_getElem (history : List String) (hnd : history.Nodup) :
    ∀ k (hk : k < history.length), afterCursor history history[k] = history.drop (k + 1) := by
  induction history with
  | nil =>
    intro k hk
    simp at hk
  | cons a t ih =>
    intro k hk
    cases k with
    | zero =>
      unfold afterCursor
      rw [List.dropWhile_cons]
      simp
    | succ k =>
      have hk' : k < t.length := by simpa using hk
      rw [List.getElem_cons_succ]
      have hane : (a != t[k]) = true := by
        rw [bne_iff_ne]
        intro heq
        exact (List.nodup_cons.mp hnd).1 (by rw [heq]; exact List.getElem_mem hk')
      unfold afterCursor
      rw [List.dropWhile_cons, if_pos hane, List.drop_succ_cons]
      have := ih (List.nodup_cons.mp hnd).2 k hk'
      unfold afterCursor at this
      exact this

/-- What the mock source answers at the cursor corresponding to `k`
already-collected signatures. -/
theorem mkSrc_query (history : List String) (start : String) (hnd : history.Nodup)
    (hstart : start ∉ history) (k : Nat) (c : String) (hklen : k ≤ history.length)
    (hc0 : k = 0 → c = start) (hcpos : 0 < k → c = history.getD (k - 1) start) :
    ∀ l, mkSrc history start c l = (history.drop k).take l := by
  intro l
  cases Nat.eq_zero_or_pos k with
  | inl h0 =>
    subst h0
    rw [hc0 rfl]
    simp [mkSrc]
  | inr hpos =>
    have hk1 : k - 1 < history.length := by omega
    have hc : c = history[k - 1] := by
      rw [hcpos hpos]
      exact List.getD_eq_getElem history start hk1
    have hcne : c ≠ start := by
      rw [hc]
      intro heq
      exact hstart (by rw [← heq]; exact List.getElem_mem hk1)
    simp only [mkSrc, if_neg hcne]
    rw [hc, afterCursor_getElem history hnd (k - 1) hk1]
    congr 2
    omega

/-- Last element of a nonempty list, through `getLastD`. -/
theorem getLastD_eq_getElem (l : List String) (d : String) (h : l ≠ []) :
    l.getLastD d = l.get ⟨l.length - 1, by have := List.length_pos.mpr h; omega⟩ := by
  rw [List.getLastD_eq_getLast?, List.getLast?_eq_getElem?,
    List.getElem?_eq_getElem (by have := List.length_pos.mpr h; omega)]
  rw [List.get_eq_getElem]
  rfl

/-- The pagination loop over the mock source: having already collected
the first `k` signatures with a cursor consistent with that, it finishes
with exactly the first `total` signatures of the history (all of them if
the history is shorter). -/
theorem collectLoop_mkSrc (history : List String) (start : String) (total batch : Nat)
    (hnd : history.Nodup) (hstart : start ∉ history) (hB : 1 ≤ batch) :
    ∀ d k c, total - k = d → k ≤ history.length → k ≤ total →
      (k = 0 → c = start) → (0 < k → c = history.getD (k - 1) start) →
      collectLoop (mkSrc history start) total batch c (history.take k) = history.take total := by
  intro d
  induction d using Nat.strong_induction_on with
  | _ d ih =>
    intro k c hd hklen hktot hc0 hcpos
    have hlen : (history.take k).length = k := by
      rw [List.length_take]
      omega
    by_cases hlt : k < total
    case neg =>
      rw [collectLoop.eq_def, hlen, dif_neg (by omega : ¬ k < total)]
      have hk : k = total := by omega
      rw [hk]
    case pos =>
      have hmin1 : 1 ≤ min batch (total - k) := by omega
      have hquery := mkSrc_query history start hnd hstart k c hklen hc0 hcpos
        (min batch (total - k))
      rw [collectLoop.eq_def, hlen, dif_pos hlt]
      dsimp only [getSignatures]
      rw [hquery]
      by_cases hnil : (history.drop k).take (min batch (total - k)) = []
      · rw [dif_pos hnil]
        have hdropnil : history.drop k = [] := by
          cases hdk : history.drop k with
          | nil => rfl
          | cons x xs =>
            rw [hdk] at hnil
            cases hm : min batch (total - k) with
            | zero => omega
            | succ m =>
              rw [hm] at hnil
              simp at hnil
        have hfull : history.length ≤ k := by
          have := List.drop_eq_nil_iff.mp hdropnil
          omega
        rw [List.take_of_length_le (by omega), List.take_of_length_le (by omega)]
      · rw [dif_neg hnil]
        have hplen : ((history.drop k).take (min batch (total - k))).length
            = min (min batch (total - k)) (history.length - k) := by
          rw [List.length_take, List.length_drop]
        have hppos : 0 < ((history.drop k).take (min batch (total - k))).length :=
          List.length_pos.mpr hnil
        have happ : history.take k ++ (history.drop k).take (min batch (total - k))
            = history.take (k + ((history.drop k).take (min batch (total - k))).length) := by
          rw [List.take_add]
          congr 1
          rw [List.take_eq_take]
          have hld := List.length_drop k history
          omega
        have hcursor : ((history.drop k).take (min batch (total - k))).getLastD c
            = history.getD
              (k + ((history.drop k).take (min batch (total - k))).length - 1) start := by
          rw [getLastD_eq_getElem _ c hnil, List.get_eq_getElem]
          dsimp only
          rw [List.getElem_take, List.getElem_drop]
          rw [List.getD_eq_getElem history start (by omega)]
          congr 1
          omega
        rw [happ, hcursor]
        exact ih (total - (k + ((history.drop k).take (min batch (total - k))).length))
          (by omega)
          (k + ((history.drop k).take (min batch (total - k))).length)
          _ rfl (by omega) (by omega)
          (fun h0 => absurd h0 (by omega))
          (fun _ => rfl)

/-- Against any source that honours the request limit, the loop never
collects more than `total` signatures. -/
theorem collectLoop_le (rpc : String → Nat → List String) (total batch : Nat)
    (hrpc : ∀ c l, (rpc c l).length ≤ l) :
    ∀ d (c : String) (acc : List String), total - acc.length = d → acc.length ≤ total →
      (collectLoop rpc total batch c acc).length ≤ total := by
  intro d
  induction d using Nat.strong_induction_on with
  | _ d ih =>
    intro c acc hd hacc
    rw [collectLoop.eq_def]
    by_cases hlt : acc.length < total
    · rw [dif_pos hlt]
      dsimp only [getSignatures]
      by_cases hnil : rpc c (min batch (total - acc.length)) = []
      · rw [dif_pos hnil]
        exact hacc
      · rw [dif_neg hnil]
        have hple := hrpc c (min batch (total - acc.length))
        have hppos : 0 < (rpc c (min batch (total - acc.length))).length :=
          List.length_pos.mpr hnil
        exact ih (total - (acc ++ rpc c (min batch (total - acc.length))).length)
          (by simp only [List.length_append]; omega) _ _ rfl
          (by simp only [List.length_append]; omega)
    · rw [dif_neg hlt]
      omega

/-! ## Claim C6 — pagination requests, cursor advance, and termination -/

/-- C6.  The pagination loop (which requests `min pageSize
(targetCount − collectedSoFar)` each round and advances the cursor to the
last signature of the page): (a) against any source honouring the request
limit, the collected list never exceeds `targetCount`; (b) against a
history-backed source it collects exactly the first `targetCount`
signatures — all of `targetCount` when the history suffices, and exactly
the partial history when it is exhausted early (a request then returns
zero signatures and the loop stops). -/
theorem C6_pagination :
    (∀ (rpc : String → Nat → List String) (total batch : Nat) (start : String),
      (∀ c l, (rpc c l).length ≤ l) →
      (collect rpc total batch start).length ≤ total)
    ∧ (∀ (history : List String) (start : String) (total batch : Nat),
      history.Nodup → start ∉ history → 1 ≤ batch →
      collect (mkSrc history start) total batch start = history.take total) := by
  constructor
  · intro rpc total batch start hrpc
    exact collectLoop_le rpc total batch hrpc (total - 0) start [] rfl (by simp)
  · intro history start total batch hnd hstart hB
    exact collectLoop_mkSrc history start total batch hnd hstart hB
      (total - 0) 0 start rfl (by simp) (by simp) (fun _ => rfl) (by omega)

/-- A three-signature mock history. -/
def histH : List String := ["h1", "h2", "h3"]

/-- Witness for C6: with page size 1 and target 2, the mock source yields
exactly the first two signatures; a source returning nothing stays within
the target bound. -/
theorem C6_pagination_witness :
    collect (mkSrc histH "start") 2 1 "start" = ["h1", "h2"]
    ∧ (collect (fun c l => []) 5 3 "s").length ≤ 5 := by
  constructor
  · exact (C6_pagination.2 histH "start" 2 1 (by decide) (by decide) (by decide)).trans
      (by decide)
  · exact C6_pagination.1 (fun c l => []) 5 3 "s" (fun c l => by simp)

end Pumpfinder
